import Mathlib

/-
Verification of the BoundedIntSet ("Fast" integer set) specification.

The repository ships only the test file for the set (package intsets,
TestFast and friends); the implementation file itself is not part of the
source tree.  Every definition below is therefore modelled from the
specification text (spec.md sections 3, 4, 8) describing the dual
dense-bitmap / sorted-overflow representation, its operations, the
canonical text formatter, and the byte codec.
-/

set_option maxRecDepth 4000

namespace Intsets

/-- Modelled from the spec: the dense block's window bound ("CUTOFF", a fixed
implementation constant; the test file calls it smallCutoff).  The missing
implementation file defines it; we fix the representative value 128. -/
def smallCutoff : Nat := 128

theorem smallCutoff_eq : smallCutoff = 128 := rfl

/-- Modelled from the spec: a BoundedIntSet holds a dense bitmap covering
membership for integers in [0, smallCutoff) and a sorted overflow collection
for every other member (negative values and values >= smallCutoff). -/
structure Fast where
  dense : Nat
  overflow : List Int
deriving DecidableEq

/-- The empty set: both sub-collections empty. -/
def emptyFast : Fast := ⟨0, []⟩

/-- Modelled from the spec: membership test, routed to the dense block for
values in the window and to the overflow collection otherwise. -/
def Fast.Contains (s : Fast) (v : Int) : Bool :=
  if 0 ≤ v ∧ v < (smallCutoff : Int) then s.dense.testBit v.toNat
  else decide (v ∈ s.overflow)

/-- Sorted insertion into the overflow collection, skipping duplicates. -/
def insertSorted (v : Int) : List Int → List Int
  | [] => [v]
  | x :: xs =>
    if v < x then v :: x :: xs
    else if v = x then x :: xs
    else x :: insertSorted v xs

/-- Modelled from the spec: Add routes to the dense block when
0 <= v < smallCutoff, else inserts into the overflow collection. -/
def Fast.Add (s : Fast) (v : Int) : Fast :=
  if 0 ≤ v ∧ v < (smallCutoff : Int) then { s with dense := s.dense ||| 2 ^ v.toNat }
  else { s with overflow := insertSorted v s.overflow }

/-- Modelled from the spec: Remove clears the dense bit or erases the value
from the overflow collection. -/
def Fast.Remove (s : Fast) (v : Int) : Fast :=
  if 0 ≤ v ∧ v < (smallCutoff : Int) then
    { s with dense := if s.dense.testBit v.toNat then s.dense ^^^ 2 ^ v.toNat else s.dense }
  else { s with overflow := s.overflow.erase v }

/-- Modelled from the spec: Empty is true iff both sub-collections are empty. -/
def Fast.Empty (s : Fast) : Bool := s.dense == 0 && s.overflow.isEmpty

/-- Modelled from the spec: the convenience constructor from a fixed list of
integers (MakeFast in the test file). -/
def MakeFast (vals : List Int) : Fast := vals.foldl Fast.Add emptyFast

/-- Representation invariant of the dual representation: the bitmap only uses
bits below smallCutoff, and the overflow collection is strictly sorted and
holds only out-of-window values. -/
def Fast.WF (s : Fast) : Prop :=
  s.dense < 2 ^ smallCutoff ∧ s.overflow.Pairwise (· < ·) ∧
    ∀ v ∈ s.overflow, v < 0 ∨ (smallCutoff : Int) ≤ v

theorem toNat_lt_smallCutoff {v : Int} (h : 0 ≤ v ∧ v < (smallCutoff : Int)) :
    v.toNat < smallCutoff := by
  simp only [smallCutoff_eq] at h ⊢
  omega

theorem two_pow_toNat_lt {v : Int} (h : 0 ≤ v ∧ v < (smallCutoff : Int)) :
    2 ^ v.toNat < 2 ^ smallCutoff :=
  Nat.pow_lt_pow_right (by norm_num) (toNat_lt_smallCutoff h)

theorem mem_insertSorted (v w : Int) (l : List Int) :
    w ∈ insertSorted v l ↔ w = v ∨ w ∈ l := by
  induction l with
  | nil => simp [insertSorted]
  | cons x xs ih =>
    simp only [insertSorted]
    by_cases h1 : v < x
    · rw [if_pos h1]
      simp only [List.mem_cons]
    · by_cases h2 : v = x
      · rw [if_neg h1, if_pos h2]
        subst h2
        simp only [List.mem_cons]
        tauto
      · rw [if_neg h1, if_neg h2]
        simp only [List.mem_cons, ih]
        tauto

theorem pairwise_insertSorted (v : Int) (l : List Int)
    (hl : l.Pairwise (· < ·)) : (insertSorted v l).Pairwise (· < ·) := by
  induction l with
  | nil => simp [insertSorted]
  | cons x xs ih =>
    rw [List.pairwise_cons] at hl
    obtain ⟨hx, hxs⟩ := hl
    simp only [insertSorted]
    by_cases h1 : v < x
    · rw [if_pos h1, List.pairwise_cons]
      refine ⟨?_, List.pairwise_cons.2 ⟨hx, hxs⟩⟩
      intro a ha
      rcases List.mem_cons.1 ha with h | h
      · exact h ▸ h1
      · exact lt_trans h1 (hx a h)
    · by_cases h2 : v = x
      · rw [if_neg h1, if_pos h2, List.pairwise_cons]
        exact ⟨hx, hxs⟩
      · rw [if_neg h1, if_neg h2, List.pairwise_cons]
        have hxv : x < v := by omega
        refine ⟨?_, ih hxs⟩
        intro a ha
        rcases (mem_insertSorted v a xs).1 ha with h | h
        · exact h ▸ hxv
        · exact hx a h

theorem WF_Add (s : Fast) (v : Int) (h : s.WF) : (s.Add v).WF := by
  obtain ⟨hd, hp, hr⟩ := h
  unfold Fast.Add
  by_cases hw : 0 ≤ v ∧ v < (smallCutoff : Int)
  · rw [if_pos hw]
    exact ⟨Nat.or_lt_two_pow hd (two_pow_toNat_lt hw), hp, hr⟩
  · rw [if_neg hw]
    refine ⟨hd, pairwise_insertSorted v s.overflow hp, ?_⟩
    intro w hwmem
    rcases (mem_insertSorted v w s.overflow).1 hwmem with h | h
    · subst h; omega
    · exact hr w h

theorem WF_Remove (s : Fast) (v : Int) (h : s.WF) : (s.Remove v).WF := by
  obtain ⟨hd, hp, hr⟩ := h
  unfold Fast.Remove
  by_cases hw : 0 ≤ v ∧ v < (smallCutoff : Int)
  · rw [if_pos hw]
    refine ⟨?_, hp, hr⟩
    by_cases hb : s.dense.testBit v.toNat
    · rw [if_pos hb]
      exact Nat.xor_lt_two_pow hd (two_pow_toNat_lt hw)
    · rw [if_neg hb]; exact hd
  · rw [if_neg hw]
    refine ⟨hd, hp.sublist (List.erase_sublist v s.overflow), ?_⟩
    intro w hwmem
    exact hr w (List.mem_of_mem_erase hwmem)

theorem WF_empty : emptyFast.WF := by
  refine ⟨?_, List.Pairwise.nil, by simp [emptyFast]⟩
  show (0 : Nat) < 2 ^ smallCutoff
  exact Nat.two_pow_pos smallCutoff

theorem nodup_of_pairwise_lt {l : List Int} (h : l.Pairwise (· < ·)) : l.Nodup :=
  h.imp (fun hab => ne_of_lt hab)

theorem contains_Add (s : Fast) (v w : Int) :
    (s.Add v).Contains w = (decide (w = v) || s.Contains w) := by
  unfold Fast.Add Fast.Contains
  by_cases hv : 0 ≤ v ∧ v < (smallCutoff : Int)
  · rw [if_pos hv]
    by_cases hw : 0 ≤ w ∧ w < (smallCutoff : Int)
    · simp only [if_pos hw, Nat.testBit_or, Nat.testBit_two_pow]
      by_cases heq : w = v
      · subst heq; simp
      · have hne : v.toNat ≠ w.toNat := by
          intro h; apply heq; omega
        simp [heq, hne]
    · simp only [if_neg hw]
      have : w ≠ v := by
        intro h; subst h; exact hw hv
      simp [this]
  · rw [if_neg hv]
    by_cases hw : 0 ≤ w ∧ w < (smallCutoff : Int)
    · simp only [if_pos hw]
      have : w ≠ v := by
        intro h; subst h; exact hv hw
      simp [this]
    · simp only [if_neg hw]
      by_cases heq : w = v
      · simp [heq, mem_insertSorted]
      · simp [heq, mem_insertSorted]

theorem contains_Remove (s : Fast) (v w : Int) (hwf : s.WF) :
    (s.Remove v).Contains w = (decide (w ≠ v) && s.Contains w) := by
  obtain ⟨hd, hp, hr⟩ := hwf
  unfold Fast.Remove Fast.Contains
  by_cases hv : 0 ≤ v ∧ v < (smallCutoff : Int)
  · rw [if_pos hv]
    by_cases hw : 0 ≤ w ∧ w < (smallCutoff : Int)
    · simp only [if_pos hw]
      by_cases hb : s.dense.testBit v.toNat
      · simp only [if_pos hb, Nat.testBit_xor, Nat.testBit_two_pow]
        by_cases heq : w = v
        · subst heq; simp [hb]
        · have hne : v.toNat ≠ w.toNat := by
            intro h; apply heq; omega
          simp [heq, hne]
      · simp only [if_neg hb]
        by_cases heq : w = v
        · subst heq; simp [hb]
        · simp [heq]
    · simp only [if_neg hw]
      have : w ≠ v := by
        intro h; subst h; exact hw hv
      simp [this]
  · rw [if_neg hv]
    by_cases hw : 0 ≤ w ∧ w < (smallCutoff : Int)
    · simp only [if_pos hw]
      have : w ≠ v := by
        intro h; subst h; exact hv hw
      simp [this]
    · simp only [if_neg hw]
      by_cases heq : w = v
      · subst heq
        simp [(nodup_of_pairwise_lt hp).mem_erase_iff]
      · simp [(nodup_of_pairwise_lt hp).mem_erase_iff, heq]

/-- Ascending list of the dense block's members, by scanning the bitmap. -/
def denseList (d : Nat) : List Int :=
  ((List.range smallCutoff).filter (fun k => d.testBit k)).map (fun k => Int.ofNat k)

/-- Modelled from the spec: Ordered materializes all members ascending,
merging the negative overflow members, the dense block, and the high
overflow members. -/
def Fast.Ordered (s : Fast) : List Int :=
  (s.overflow.filter (fun v => decide (v < 0))) ++ denseList s.dense ++
    (s.overflow.filter (fun v => decide ((smallCutoff : Int) ≤ v)))

theorem ofNat_cast_eq (k : Nat) : Int.ofNat k = (k : Int) := rfl

theorem mem_denseList (d : Nat) (w : Int) :
    w ∈ denseList d ↔ 0 ≤ w ∧ w < (smallCutoff : Int) ∧ d.testBit w.toNat := by
  simp only [denseList, List.mem_map, List.mem_filter, List.mem_range, ofNat_cast_eq]
  constructor
  · rintro ⟨k, ⟨hk, hb⟩, rfl⟩
    refine ⟨by omega, ?_, by simpa using hb⟩
    simp only [smallCutoff_eq] at hk ⊢
    exact_mod_cast hk
  · rintro ⟨h0, hlt, hb⟩
    refine ⟨w.toNat, ⟨?_, hb⟩, by omega⟩
    simp only [smallCutoff_eq] at hlt ⊢
    omega

theorem pairwise_denseList (d : Nat) : (denseList d).Pairwise (· < ·) := by
  unfold denseList
  refine List.Pairwise.map _ ?_ ((List.pairwise_lt_range smallCutoff).filter _)
  intro a b h
  simp only [ofNat_cast_eq]
  exact_mod_cast h

theorem sorted_Ordered (s : Fast) (hwf : s.WF) : s.Ordered.Pairwise (· < ·) := by
  obtain ⟨hd, hp, hr⟩ := hwf
  unfold Fast.Ordered
  rw [List.pairwise_append]
  refine ⟨?_, hp.filter _, ?_⟩
  · rw [List.pairwise_append]
    refine ⟨hp.filter _, pairwise_denseList s.dense, ?_⟩
    intro a ha b hb
    rw [List.mem_filter] at ha
    have ha2 := of_decide_eq_true ha.2
    rw [mem_denseList] at hb
    omega
  · intro a ha b hb
    rw [List.mem_filter] at hb
    have hb2 := of_decide_eq_true hb.2
    rw [List.mem_append] at ha
    rcases ha with ha | ha
    · rw [List.mem_filter] at ha
      have := of_decide_eq_true ha.2
      omega
    · rw [mem_denseList] at ha
      omega

theorem mem_Ordered (s : Fast) (w : Int) (hwf : s.WF) :
    w ∈ s.Ordered ↔ s.Contains w = true := by
  obtain ⟨hd, hp, hr⟩ := hwf
  unfold Fast.Ordered Fast.Contains
  simp only [List.mem_append, List.mem_filter, mem_denseList, decide_eq_true_eq]
  by_cases hw : 0 ≤ w ∧ w < (smallCutoff : Int)
  · rw [if_pos hw]
    constructor
    · rintro ((⟨hm, hneg⟩ | ⟨_, _, hb⟩) | ⟨hm, hge⟩)
      · omega
      · exact hb
      · omega
    · intro hb
      exact Or.inl (Or.inr ⟨hw.1, hw.2, hb⟩)
  · rw [if_neg hw]
    constructor
    · rintro ((⟨hm, hneg⟩ | ⟨h0, hlt, _⟩) | ⟨hm, hge⟩)
      · exact decide_eq_true hm
      · exact absurd ⟨h0, hlt⟩ hw
      · exact decide_eq_true hm
    · intro hm
      have hmem := of_decide_eq_true hm
      rcases hr w hmem with hneg | hge
      · exact Or.inl (Or.inl ⟨hmem, hneg⟩)
      · exact Or.inr ⟨hmem, hge⟩

theorem nodup_Ordered (s : Fast) (hwf : s.WF) : s.Ordered.Nodup :=
  nodup_of_pairwise_lt (sorted_Ordered s hwf)

theorem eq_sorted_of_mem_iff {l l' : List Int} (hl : l.Pairwise (· < ·))
    (hl' : l'.Pairwise (· < ·)) (h : ∀ v, v ∈ l ↔ v ∈ l') : l = l' := by
  haveI : IsAntisymm Int (· < ·) :=
    ⟨fun a b h1 h2 => absurd (lt_trans h1 h2) (lt_irrefl a)⟩
  have hperm : l.Perm l' :=
    (List.perm_ext_iff_of_nodup (nodup_of_pairwise_lt hl)
      (nodup_of_pairwise_lt hl')).2 h
  exact List.eq_of_perm_of_sorted hperm hl hl'

theorem fast_ext (a b : Fast) (ha : a.WF) (hb : b.WF)
    (h : ∀ v, a.Contains v = b.Contains v) : a = b := by
  obtain ⟨hda, hpa, hra⟩ := ha
  obtain ⟨hdb, hpb, hrb⟩ := hb
  have hdense : a.dense = b.dense := by
    apply Nat.eq_of_testBit_eq
    intro k
    by_cases hk : k < smallCutoff
    · have hwin : 0 ≤ (k : Int) ∧ (k : Int) < (smallCutoff : Int) := by
        constructor
        · exact Int.ofNat_nonneg k
        · exact_mod_cast hk
      have := h (k : Int)
      unfold Fast.Contains at this
      rw [if_pos hwin, if_pos hwin] at this
      simpa using this
    · have hka : a.dense.testBit k = false :=
        Nat.testBit_lt_two_pow (lt_of_lt_of_le hda
          (Nat.pow_le_pow_right (by norm_num) (by omega)))
      have hkb : b.dense.testBit k = false :=
        Nat.testBit_lt_two_pow (lt_of_lt_of_le hdb
          (Nat.pow_le_pow_right (by norm_num) (by omega)))
      rw [hka, hkb]
  have hover : a.overflow = b.overflow := by
    apply eq_sorted_of_mem_iff hpa hpb
    intro v
    constructor
    · intro hv
      have hout : ¬(0 ≤ v ∧ v < (smallCutoff : Int)) := by
        rcases hra v hv with h1 | h1 <;> omega
      have := h v
      unfold Fast.Contains at this
      rw [if_neg hout, if_neg hout] at this
      have hva : decide (v ∈ a.overflow) = true := decide_eq_true hv
      rw [hva] at this
      exact of_decide_eq_true this.symm
    · intro hv
      have hout : ¬(0 ≤ v ∧ v < (smallCutoff : Int)) := by
        rcases hrb v hv with h1 | h1 <;> omega
      have := h v
      unfold Fast.Contains at this
      rw [if_neg hout, if_neg hout] at this
      have hvb : decide (v ∈ b.overflow) = true := decide_eq_true hv
      rw [hvb] at this
      exact of_decide_eq_true this
  cases a
  cases b
  simp only at hdense hover
  rw [hdense, hover]

/-- Modelled from the spec: Copy yields an independent value with the same
members. -/
def Fast.Copy (s : Fast) : Fast := s

/-- Modelled from the spec: CopyFrom fully replaces the receiver (its previous
contents, empty or not, are discarded) with a copy of the argument. -/
def Fast.CopyFrom (_dst : Fast) (src : Fast) : Fast := src

/-- Modelled from the spec: in-place union, adding every member of the other
operand. -/
def Fast.UnionWith (s t : Fast) : Fast := t.Ordered.foldl Fast.Add s

/-- Modelled from the spec: value-returning union (in-place union applied to a
copy of the receiver). -/
def Fast.Union (s t : Fast) : Fast := s.Copy.UnionWith t

/-- Modelled from the spec: in-place intersection, keeping exactly the members
of the receiver that the other operand contains. -/
def Fast.IntersectionWith (s t : Fast) : Fast :=
  MakeFast (s.Ordered.filter (fun v => t.Contains v))

/-- Modelled from the spec: value-returning intersection. -/
def Fast.Intersection (s t : Fast) : Fast := s.Copy.IntersectionWith t

/-- Modelled from the spec: in-place difference, removing every member of the
other operand. -/
def Fast.DifferenceWith (s t : Fast) : Fast := t.Ordered.foldl Fast.Remove s

/-- Modelled from the spec: value-returning difference. -/
def Fast.Difference (s t : Fast) : Fast := s.Copy.DifferenceWith t

/-- Modelled from the spec: Intersects is true iff the intersection is
non-empty. -/
def Fast.Intersects (s t : Fast) : Bool := s.Ordered.any (fun v => t.Contains v)

/-- Modelled from the spec: SubsetOf is true iff every member of the receiver
is a member of the other operand. -/
def Fast.SubsetOf (s t : Fast) : Bool := s.Ordered.all (fun v => t.Contains v)

/-- Modelled from the spec: Equals is true iff SubsetOf holds in both
directions. -/
def Fast.Equals (s t : Fast) : Bool := s.SubsetOf t && t.SubsetOf s

/-- Modelled from the spec: Next returns the smallest member greater than or
equal to the argument (none plays the role of found = false). -/
def Fast.Next (s : Fast) (f : Int) : Option Int :=
  s.Ordered.find? (fun v => decide (f ≤ v))

/-- Modelled from the spec: ForEach folds the visitor over the members in
ascending order. -/
def Fast.ForEach (s : Fast) (visit : Int → α → α) (init : α) : α :=
  s.Ordered.foldl (fun a v => visit v a) init

theorem contains_empty (v : Int) : emptyFast.Contains v = false := by
  unfold Fast.Contains emptyFast
  by_cases hw : 0 ≤ v ∧ v < (smallCutoff : Int)
  · rw [if_pos hw]
    exact Nat.zero_testBit v.toNat
  · rw [if_neg hw]
    simp

theorem contains_foldl_Add (l : List Int) (s : Fast) (v : Int) :
    (l.foldl Fast.Add s).Contains v = (s.Contains v || decide (v ∈ l)) := by
  induction l generalizing s with
  | nil => simp
  | cons x xs ih =>
    rw [List.foldl_cons, ih, contains_Add]
    cases h1 : decide (v = x) <;> cases h2 : s.Contains v <;>
      cases h3 : decide (v ∈ xs) <;> simp_all [List.mem_cons]

theorem WF_foldl_Add (l : List Int) (s : Fast) (h : s.WF) :
    (l.foldl Fast.Add s).WF := by
  induction l generalizing s with
  | nil => exact h
  | cons x xs ih =>
    rw [List.foldl_cons]
    exact ih _ (WF_Add s x h)

theorem WF_foldl_Remove (l : List Int) (s : Fast) (h : s.WF) :
    (l.foldl Fast.Remove s).WF := by
  induction l generalizing s with
  | nil => exact h
  | cons x xs ih =>
    rw [List.foldl_cons]
    exact ih _ (WF_Remove s x h)

theorem contains_foldl_Remove (l : List Int) (s : Fast) (v : Int) (h : s.WF) :
    (l.foldl Fast.Remove s).Contains v = (s.Contains v && !decide (v ∈ l)) := by
  induction l generalizing s with
  | nil => simp
  | cons x xs ih =>
    rw [List.foldl_cons, ih _ (WF_Remove s x h), contains_Remove s x v h]
    cases h1 : decide (v = x) <;> cases h2 : s.Contains v <;>
      cases h3 : decide (v ∈ xs) <;> simp_all [List.mem_cons]

theorem WF_MakeFast (l : List Int) : (MakeFast l).WF :=
  WF_foldl_Add l emptyFast WF_empty

theorem contains_MakeFast (l : List Int) (v : Int) :
    (MakeFast l).Contains v = decide (v ∈ l) := by
  unfold MakeFast
  rw [contains_foldl_Add, contains_empty]
  simp

theorem SubsetOf_iff (s t : Fast) (hs : s.WF) :
    s.SubsetOf t = true ↔ ∀ v, s.Contains v = true → t.Contains v = true := by
  unfold Fast.SubsetOf
  rw [List.all_eq_true]
  constructor
  · intro h v hv
    exact h v ((mem_Ordered s v hs).2 hv)
  · intro h v hv
    exact h v ((mem_Ordered s v hs).1 hv)

theorem SubsetOf_refl (s : Fast) (hs : s.WF) : s.SubsetOf s = true :=
  (SubsetOf_iff s s hs).2 (fun _ hv => hv)

theorem Equals_iff_eq (s t : Fast) (hs : s.WF) (ht : t.WF) :
    s.Equals t = true ↔ s = t := by
  constructor
  · intro h
    unfold Fast.Equals at h
    rw [Bool.and_eq_true] at h
    have h1 := (SubsetOf_iff s t hs).1 h.1
    have h2 := (SubsetOf_iff t s ht).1 h.2
    apply fast_ext s t hs ht
    intro v
    cases hv : s.Contains v
    · cases hv' : t.Contains v
      · rfl
      · exact absurd (h2 v hv') (by simp [hv])
    · exact (h1 v hv).symm
  · rintro rfl
    unfold Fast.Equals
    rw [SubsetOf_refl s hs]
    rfl

theorem Empty_iff (s : Fast) (hwf : s.WF) :
    s.Empty = true ↔ ∀ v, s.Contains v = false := by
  obtain ⟨hd, hp, hr⟩ := hwf
  unfold Fast.Empty
  constructor
  · intro h v
    rw [Bool.and_eq_true, beq_iff_eq, List.isEmpty_iff] at h
    unfold Fast.Contains
    by_cases hw : 0 ≤ v ∧ v < (smallCutoff : Int)
    · rw [if_pos hw, h.1]
      exact Nat.zero_testBit v.toNat
    · rw [if_neg hw, h.2]
      simp
  · intro h
    rw [Bool.and_eq_true, beq_iff_eq, List.isEmpty_iff]
    constructor
    · apply Nat.eq_of_testBit_eq
      intro k
      rw [Nat.zero_testBit]
      by_cases hk : k < smallCutoff
      · have hwin : 0 ≤ (k : Int) ∧ (k : Int) < (smallCutoff : Int) :=
          ⟨Int.ofNat_nonneg k, by exact_mod_cast hk⟩
        have := h (k : Int)
        unfold Fast.Contains at this
        rw [if_pos hwin] at this
        simpa using this
      · exact Nat.testBit_lt_two_pow (lt_of_lt_of_le hd
          (Nat.pow_le_pow_right (by norm_num) (by omega)))
    · cases hov : s.overflow with
      | nil => rfl
      | cons x xs =>
        exfalso
        have hx : x ∈ s.overflow := by rw [hov]; exact List.mem_cons_self x xs
        have hout : ¬(0 ≤ x ∧ x < (smallCutoff : Int)) := by
          rcases hr x hx with h1 | h1 <;> omega
        have := h x
        unfold Fast.Contains at this
        rw [if_neg hout] at this
        simp only [decide_eq_false_iff_not] at this
        exact this hx

/-- Driving Next repeatedly: collect Next(f), then Next(last + 1), and so on,
with enough fuel to exhaust the set. -/
def nextIterAux (s : Fast) (f : Int) : Nat → List Int
  | 0 => []
  | fuel + 1 =>
    match s.Next f with
    | none => []
    | some v => v :: nextIterAux s (v + 1) fuel

/-- The sequence obtained by driving Next from a starting point. -/
def nextIter (s : Fast) (f : Int) : List Int := nextIterAux s f s.Ordered.length

theorem find?_append_lt (pre rest : List Int) (f : Int)
    (hpre : ∀ v ∈ pre, v < f) :
    (pre ++ rest).find? (fun v => decide (f ≤ v)) =
      rest.find? (fun v => decide (f ≤ v)) := by
  induction pre with
  | nil => rfl
  | cons x xs ih =>
    rw [List.cons_append, List.find?_cons_of_neg, ih]
    · intro v hv
      exact hpre v (List.mem_cons_of_mem x hv)
    · simp only [decide_eq_true_eq]
      have := hpre x (List.mem_cons_self x xs)
      omega

theorem nextIterAux_spec (s : Fast) (rest : List Int) :
    ∀ (pre : List Int) (f : Int) (fuel : Nat),
      s.Ordered = pre ++ rest → (∀ v ∈ pre, v < f) →
      s.Ordered.Pairwise (· < ·) → rest.length ≤ fuel → (∀ v ∈ rest, f ≤ v) →
      nextIterAux s f fuel = rest := by
  induction rest with
  | nil =>
    intro pre f fuel hsplit hpre hsort hlen hrest
    have hnone : s.Next f = none := by
      unfold Fast.Next
      rw [hsplit, find?_append_lt pre [] f hpre]
      rfl
    cases fuel with
    | zero => rfl
    | succ fuel => simp [nextIterAux, hnone]
  | cons x xs ih =>
    intro pre f fuel hsplit hpre hsort hlen hrest
    cases fuel with
    | zero => simp at hlen
    | succ fuel =>
      have hsome : s.Next f = some x := by
        unfold Fast.Next
        rw [hsplit, find?_append_lt pre (x :: xs) f hpre]
        rw [List.find?_cons_of_pos]
        simp only [decide_eq_true_eq]
        exact hrest x (List.mem_cons_self x xs)
      simp only [nextIterAux, hsome]
      have hxs : ∀ v ∈ xs, x < v := by
        rw [hsplit] at hsort
        have h2 := (List.pairwise_append.1 hsort).2.1
        exact (List.pairwise_cons.1 h2).1
      have hsplit' : s.Ordered = (pre ++ [x]) ++ xs := by
        rw [hsplit, List.append_assoc]
        rfl
      have hpre' : ∀ v ∈ pre ++ [x], v < x + 1 := by
        intro v hv
        rcases List.mem_append.1 hv with h | h
        · have h1 := hpre v h
          have h2 := hrest x (List.mem_cons_self x xs)
          omega
        · have := List.mem_singleton.1 h
          omega
      have hrest' : ∀ v ∈ xs, x + 1 ≤ v := by
        intro v hv
        have := hxs v hv
        omega
      rw [ih (pre ++ [x]) (x + 1) fuel hsplit' hpre' hsort
        (by simpa using hlen) hrest']

theorem nextIter_eq_Ordered (s : Fast) (f : Int) (hwf : s.WF)
    (hlow : ∀ v ∈ s.Ordered, f ≤ v) : nextIter s f = s.Ordered := by
  unfold nextIter
  exact nextIterAux_spec s s.Ordered [] f s.Ordered.length rfl (by simp)
    (sorted_Ordered s hwf) le_rfl hlow

/-- Integers of the closed interval as an ascending list. -/
def rangeList (a b : Int) : List Int :=
  (List.range (b + 1 - a).toNat).map (fun k => a + Int.ofNat k)

theorem mem_rangeList (a b v : Int) : v ∈ rangeList a b ↔ a ≤ v ∧ v ≤ b := by
  simp only [rangeList, List.mem_map, List.mem_range, ofNat_cast_eq]
  constructor
  · rintro ⟨k, hk, rfl⟩
    omega
  · rintro ⟨h1, h2⟩
    exact ⟨(v - a).toNat, by omega, by omega⟩

theorem mem_foldl_insertSorted (l : List Int) (init : List Int) (w : Int) :
    w ∈ l.foldl (fun acc v => insertSorted v acc) init ↔ w ∈ l ∨ w ∈ init := by
  induction l generalizing init with
  | nil => simp
  | cons x xs ih =>
    rw [List.foldl_cons, ih, mem_insertSorted]
    simp only [List.mem_cons]
    tauto

theorem pairwise_foldl_insertSorted (l : List Int) (init : List Int)
    (h : init.Pairwise (· < ·)) :
    (l.foldl (fun acc v => insertSorted v acc) init).Pairwise (· < ·) := by
  induction l generalizing init with
  | nil => exact h
  | cons x xs ih =>
    rw [List.foldl_cons]
    exact ih _ (pairwise_insertSorted x init h)

/-- Modelled from the spec: AddRange adds every integer of the closed interval,
handling the dense window with a single bulk bitmap mask and the out-of-window
parts via overflow insertion; an empty interval contributes nothing. -/
def Fast.AddRange (s : Fast) (lo hi : Int) : Fast :=
  { dense := s.dense |||
      (2 ^ (min hi ((smallCutoff : Int) - 1) + 1 - max lo 0).toNat - 1) *
        2 ^ (max lo 0).toNat,
    overflow :=
      ((rangeList lo (min hi (-1)) ++
        rangeList (max lo (smallCutoff : Int)) hi).foldl
          (fun acc v => insertSorted v acc) s.overflow) }

theorem testBit_rangeMask (a len k : Nat) :
    ((2 ^ len - 1) * 2 ^ a).testBit k = (decide (a ≤ k) && decide (k < a + len)) := by
  rw [Nat.mul_comm, Nat.testBit_mul_pow_two]
  by_cases h1 : a ≤ k
  · rw [Nat.testBit_two_pow_sub_one]
    have h2 : (k ≥ a) = True := by simp [h1]
    by_cases h3 : k < a + len
    · have : k - a < len := by omega
      simp [h1, h3, this]
    · have : ¬(k - a < len) := by omega
      simp [h1, h3, this]
  · simp [h1]

theorem contains_AddRange (s : Fast) (lo hi v : Int) (hwf : s.WF) :
    (s.AddRange lo hi).Contains v = (decide (lo ≤ v ∧ v ≤ hi) || s.Contains v) := by
  obtain ⟨hd, hp, hr⟩ := hwf
  unfold Fast.AddRange Fast.Contains
  by_cases hw : 0 ≤ v ∧ v < (smallCutoff : Int)
  · rw [if_pos hw, if_pos hw]
    simp only [Nat.testBit_or, testBit_rangeMask]
    by_cases hin : lo ≤ v ∧ v ≤ hi
    · have h1 : (max lo 0).toNat ≤ v.toNat := by omega
      have h2 : v.toNat < (max lo 0).toNat +
          (min hi ((smallCutoff : Int) - 1) + 1 - max lo 0).toNat := by
        simp only [smallCutoff_eq] at hw ⊢
        omega
      simp [hin, h1, h2, Bool.or_comm]
    · have h2 : ¬((max lo 0).toNat ≤ v.toNat ∧ v.toNat < (max lo 0).toNat +
          (min hi ((smallCutoff : Int) - 1) + 1 - max lo 0).toNat) := by
        simp only [smallCutoff_eq] at hw ⊢
        omega
      by_cases h1 : (max lo 0).toNat ≤ v.toNat
      · have h3 : ¬(v.toNat < (max lo 0).toNat +
            (min hi ((smallCutoff : Int) - 1) + 1 - max lo 0).toNat) := by
          tauto
        simp [hin, h1, h3]
      · simp [hin, h1]
  · rw [if_neg hw, if_neg hw]
    have hmem := mem_foldl_insertSorted
      (rangeList lo (min hi (-1)) ++ rangeList (max lo (smallCutoff : Int)) hi)
      s.overflow v
    rw [List.mem_append, mem_rangeList, mem_rangeList] at hmem
    by_cases hin : lo ≤ v ∧ v ≤ hi
    · have hL : v ∈ (rangeList lo (min hi (-1)) ++
          rangeList (max lo (smallCutoff : Int)) hi).foldl
            (fun acc v => insertSorted v acc) s.overflow := by
        rw [hmem]
        left
        simp only [smallCutoff_eq] at hw ⊢
        omega
      rw [decide_eq_true hL, decide_eq_true hin, Bool.true_or]
    · have hiff : v ∈ (rangeList lo (min hi (-1)) ++
          rangeList (max lo (smallCutoff : Int)) hi).foldl
            (fun acc v => insertSorted v acc) s.overflow ↔ v ∈ s.overflow := by
        rw [hmem]
        constructor
        · rintro ((h | h) | h)
          · omega
          · omega
          · exact h
        · exact fun h => Or.inr h
      rw [decide_eq_false hin, Bool.false_or, decide_eq_decide]
      exact hiff

theorem WF_AddRange (s : Fast) (lo hi : Int) (hwf : s.WF) :
    (s.AddRange lo hi).WF := by
  obtain ⟨hd, hp, hr⟩ := hwf
  refine ⟨?_, ?_, ?_⟩
  · show s.dense ||| _ < 2 ^ smallCutoff
    apply Nat.or_lt_two_pow hd
    by_cases h0 : (min hi ((smallCutoff : Int) - 1) + 1 - max lo 0).toNat = 0
    · rw [h0]
      simp [Nat.two_pow_pos smallCutoff]
    · have hsum : (max lo 0).toNat +
          (min hi ((smallCutoff : Int) - 1) + 1 - max lo 0).toNat ≤ smallCutoff := by
        simp only [smallCutoff_eq] at h0 ⊢
        omega
      have hlt : 2 ^ (min hi ((smallCutoff : Int) - 1) + 1 - max lo 0).toNat - 1 <
          2 ^ (min hi ((smallCutoff : Int) - 1) + 1 - max lo 0).toNat := by
        have := Nat.two_pow_pos (min hi ((smallCutoff : Int) - 1) + 1 - max lo 0).toNat
        omega
      calc (2 ^ (min hi ((smallCutoff : Int) - 1) + 1 - max lo 0).toNat - 1) *
            2 ^ (max lo 0).toNat <
          2 ^ (min hi ((smallCutoff : Int) - 1) + 1 - max lo 0).toNat *
            2 ^ (max lo 0).toNat :=
        (Nat.mul_lt_mul_right (Nat.two_pow_pos (max lo 0).toNat)).2 hlt
      _ = 2 ^ ((min hi ((smallCutoff : Int) - 1) + 1 - max lo 0).toNat +
            (max lo 0).toNat) := by rw [Nat.pow_add]
      _ ≤ 2 ^ smallCutoff := Nat.pow_le_pow_right (by norm_num) (by omega)
  · exact pairwise_foldl_insertSorted _ _ hp
  · intro v hv
    simp only [Fast.AddRange] at hv
    rw [mem_foldl_insertSorted, List.mem_append, mem_rangeList, mem_rangeList] at hv
    rcases hv with (h | h) | h
    · left; omega
    · right
      simp only [smallCutoff_eq] at h ⊢
      omega
    · exact hr v h

theorem AddRange_eq_foldl_Add (s : Fast) (lo hi : Int) (hwf : s.WF) :
    s.AddRange lo hi = (rangeList lo hi).foldl Fast.Add s := by
  apply fast_ext _ _ (WF_AddRange s lo hi hwf) (WF_foldl_Add _ _ hwf)
  intro v
  rw [contains_AddRange s lo hi v hwf, contains_foldl_Add]
  have : decide (v ∈ rangeList lo hi) = decide (lo ≤ v ∧ v ≤ hi) := by
    rw [decide_eq_decide]
    exact mem_rangeList lo hi v
  rw [this, Bool.or_comm]

/-- Length of the run of consecutive successors of v at the head of the list,
together with the list that remains after the run. -/
def runLen (v : Int) : List Int → Nat × List Int
  | [] => (0, [])
  | x :: xs =>
    if x = v + 1 then
      let r := runLen x xs
      (r.1 + 1, r.2)
    else (0, x :: xs)

theorem runLen_snd_length : ∀ (l : List Int) (v : Int), (runLen v l).2.length ≤ l.length := by
  intro l
  induction l with
  | nil => intro v; simp [runLen]
  | cons x xs ih =>
    intro v
    simp only [runLen]
    by_cases h : x = v + 1
    · rw [if_pos h]
      have := ih x
      simp only [List.length_cons]
      omega
    · rw [if_neg h]

/-- Fuel-driven scanner for the token list; fuel bounded by the list length
is always sufficient. -/
def tokensAux : Nat → List Int → List String
  | 0, _ => []
  | _ + 1, [] => []
  | fuel + 1, v :: rest =>
    if v < 0 then toString v :: tokensAux fuel rest
    else
      let r := runLen v rest
      if 2 ≤ r.1 then
        (toString v ++ "-" ++ toString (v + r.1)) :: tokensAux fuel r.2
      else toString v :: tokensAux fuel rest

/-- Modelled from the spec: the token list of the canonical text format.
Members are scanned ascending; a maximal run of consecutive non-negative
members of length at least 3 becomes a single lo-hi token, every other member
is its own token (negative members never start a compressed run, so a run
crossing zero is compressed only from its non-negative suffix onward). -/
def tokens (l : List Int) : List String := tokensAux l.length l

/-- Modelled from the spec: the canonical text format, a parenthesized
comma-joined token list. -/
def Fast.toText (s : Fast) : String :=
  "(" ++ String.intercalate "," (tokens s.Ordered) ++ ")"

/-- A single Add or Remove call. -/
inductive SetOp where
  | add (v : Int)
  | remove (v : Int)
deriving DecidableEq

/-- The value an operation mentions. -/
def SetOp.val : SetOp → Int
  | .add v => v
  | .remove v => v

/-- Whether the operation is an Add. -/
def SetOp.isAdd : SetOp → Bool
  | .add _ => true
  | .remove _ => false

/-- Apply one operation to a set. -/
def applyOp (s : Fast) (op : SetOp) : Fast :=
  match op with
  | .add v => s.Add v
  | .remove v => s.Remove v

/-- Run a sequence of Add/Remove calls starting from the empty set. -/
def runOps (ops : List SetOp) : Fast := ops.foldl applyOp emptyFast

/-- Whether the last operation of the sequence mentioning v is an Add. -/
def lastWasAdd (ops : List SetOp) (v : Int) : Bool :=
  match ops.reverse.find? (fun op => decide (op.val = v)) with
  | some op => op.isAdd
  | none => false

theorem WF_applyOp (s : Fast) (op : SetOp) (h : s.WF) : (applyOp s op).WF := by
  cases op with
  | add v => exact WF_Add s v h
  | remove v => exact WF_Remove s v h

theorem WF_foldl_applyOp (ops : List SetOp) (s : Fast) (h : s.WF) :
    (ops.foldl applyOp s).WF := by
  induction ops generalizing s with
  | nil => exact h
  | cons op ops ih =>
    rw [List.foldl_cons]
    exact ih _ (WF_applyOp s op h)

theorem WF_runOps (ops : List SetOp) : (runOps ops).WF :=
  WF_foldl_applyOp ops emptyFast WF_empty

theorem contains_runOps (ops : List SetOp) (v : Int) :
    (runOps ops).Contains v = lastWasAdd ops v := by
  induction ops using List.reverseRecOn with
  | nil =>
    show emptyFast.Contains v = lastWasAdd [] v
    rw [contains_empty]
    rfl
  | append_singleton ops op ih =>
    have hrun : runOps (ops ++ [op]) = applyOp (runOps ops) op := by
      unfold runOps
      rw [List.foldl_append]
      rfl
    have hrev : (ops ++ [op]).reverse = op :: ops.reverse := by
      rw [List.reverse_append]
      rfl
    have hlast : lastWasAdd (ops ++ [op]) v =
        if op.val = v then op.isAdd else lastWasAdd ops v := by
      unfold lastWasAdd
      rw [hrev]
      by_cases hv : op.val = v
      · rw [List.find?_cons_of_pos _ (by simpa using hv), if_pos hv]
      · rw [List.find?_cons_of_neg _ (by simpa using hv), if_neg hv]
    rw [hrun, hlast]
    by_cases hv : op.val = v
    · rw [if_pos hv]
      cases op with
      | add w =>
        simp only [SetOp.val] at hv
        subst hv
        simp only [applyOp, contains_Add, SetOp.isAdd]
        simp
      | remove w =>
        simp only [SetOp.val] at hv
        subst hv
        simp only [applyOp, SetOp.isAdd]
        rw [contains_Remove _ _ _ (WF_runOps ops)]
        simp
    · rw [if_neg hv]
      cases op with
      | add w =>
        simp only [SetOp.val] at hv
        simp only [applyOp, contains_Add]
        have hde : decide (v = w) = false := by
          simp only [decide_eq_false_iff_not]
          intro h; exact hv h.symm
        rw [hde, Bool.false_or, ih]
      | remove w =>
        simp only [SetOp.val] at hv
        simp only [applyOp]
        rw [contains_Remove _ _ _ (WF_runOps ops)]
        have hde : decide (v ≠ w) = true := by
          simp only [decide_eq_true_eq]
          intro h; exact hv h.symm
        rw [hde, Bool.true_and, ih]

theorem insertSorted_of_mem (v : Int) (l : List Int) (hp : l.Pairwise (· < ·))
    (h : v ∈ l) : insertSorted v l = l := by
  induction l with
  | nil => exact absurd h (List.not_mem_nil v)
  | cons x xs ih =>
    rw [List.pairwise_cons] at hp
    simp only [insertSorted]
    by_cases h1 : v < x
    · exfalso
      rcases List.mem_cons.1 h with h2 | h2
      · omega
      · have := hp.1 v h2
        omega
    · by_cases h2 : v = x
      · rw [if_neg h1, if_pos h2]
      · rw [if_neg h1, if_neg h2, ih hp.2]
        rcases List.mem_cons.1 h with h3 | h3
        · exact absurd h3 h2
        · exact h3

theorem Add_of_contains (s : Fast) (v : Int) (hwf : s.WF)
    (h : s.Contains v = true) : s.Add v = s := by
  obtain ⟨hd, hp, hr⟩ := hwf
  unfold Fast.Add
  unfold Fast.Contains at h
  by_cases hw : 0 ≤ v ∧ v < (smallCutoff : Int)
  · rw [if_pos hw]
    rw [if_pos hw] at h
    have : s.dense ||| 2 ^ v.toNat = s.dense := by
      apply Nat.eq_of_testBit_eq
      intro k
      rw [Nat.testBit_or, Nat.testBit_two_pow]
      by_cases hk : v.toNat = k
      · subst hk
        simp [h]
      · simp [hk]
    cases s
    simp only at this ⊢
    rw [this]
  · rw [if_neg hw]
    rw [if_neg hw] at h
    have : insertSorted v s.overflow = s.overflow :=
      insertSorted_of_mem v s.overflow hp (of_decide_eq_true h)
    cases s
    simp only at this ⊢
    rw [this]

theorem Remove_of_not_contains (s : Fast) (v : Int) (hwf : s.WF)
    (h : s.Contains v = false) : s.Remove v = s := by
  obtain ⟨hd, hp, hr⟩ := hwf
  unfold Fast.Remove
  unfold Fast.Contains at h
  by_cases hw : 0 ≤ v ∧ v < (smallCutoff : Int)
  · rw [if_pos hw]
    rw [if_pos hw] at h
    rw [if_neg (by rw [h]; exact Bool.false_ne_true)]
  · rw [if_neg hw]
    rw [if_neg hw] at h
    have : s.overflow.erase v = s.overflow :=
      List.erase_of_not_mem (of_decide_eq_false h)
    cases s
    simp only at this ⊢
    rw [this]

/-- Modelled from the spec: the two flavours of format failure, structural
invalidity versus unexpected end of input. -/
inductive FormatKind where
  | invalid
  | eof
deriving DecidableEq

/-- Modelled from the spec: codec errors are format errors or IO errors
propagated unchanged from the underlying reader. -/
inductive CodecErr where
  | format (k : FormatKind)
  | ioError
deriving DecidableEq

/-- Error produced when the input bytes are exhausted: an IO error if the
underlying reader fails there, otherwise an unexpected-end-of-input format
error. -/
def endErr (ioe : Bool) : CodecErr :=
  if ioe then CodecErr.ioError else CodecErr.format FormatKind.eof

/-- Little-endian base-128 varint encoding of a natural number. -/
def encUvarint (n : Nat) : List Nat :=
  if h : n < 128 then [n] else (n % 128 + 128) :: encUvarint (n / 128)
termination_by n
decreasing_by
  exact Nat.div_lt_self (by omega) (by norm_num)

/-- Strict varint decoder: continuation bytes have the high bit set, the
encoding must be minimal, and running out of bytes reports the end error. -/
def decUvarint (ioe : Bool) : List Nat → Except CodecErr (Nat × List Nat)
  | [] => Except.error (endErr ioe)
  | b :: rest =>
    if b < 128 then Except.ok (b, rest)
    else
      match decUvarint ioe rest with
      | Except.ok (n, rest') =>
        if n = 0 then Except.error (CodecErr.format FormatKind.invalid)
        else Except.ok (n * 128 + (b - 128), rest')
      | Except.error e => Except.error e

/-- Byte encoding of a list of non-negative values, one varint each. -/
def encodeVals : List Int → List Nat
  | [] => []
  | v :: rest => encUvarint v.toNat ++ encodeVals rest

/-- Modelled from the spec: Encode writes a deterministic byte sequence (a
member-count varint followed by the members ascending, one varint each).  The
encoding is defined only for sets whose members are all non-negative; negative
members fail fast rather than encode lossily. -/
def Fast.Encode (s : Fast) : Except CodecErr (List Nat) :=
  if s.Ordered.all (fun v => decide (0 ≤ v)) then
    Except.ok (encUvarint s.Ordered.length ++ encodeVals s.Ordered)
  else Except.error (CodecErr.format FormatKind.invalid)

/-- Strict value-sequence decoder: reads the given number of varints, each
strictly larger than the previous, and requires the input to end there. -/
def decodeVals (ioe : Bool) : Nat → Int → List Nat → Except CodecErr (List Int)
  | 0, _, input =>
    if input.isEmpty then Except.ok []
    else Except.error (CodecErr.format FormatKind.invalid)
  | k + 1, prev, input =>
    match decUvarint ioe input with
    | Except.ok (n, rest) =>
      if prev < (n : Int) then
        match decodeVals ioe k (n : Int) rest with
        | Except.ok vals => Except.ok ((n : Int) :: vals)
        | Except.error e => Except.error e
      else Except.error (CodecErr.format FormatKind.invalid)
    | Except.error e => Except.error e

/-- Modelled from the spec: Decode fully replaces the receiver (the first
argument, which is discarded) with the set read from the byte stream; the
boolean models whether the underlying reader fails with an IO error once the
bytes run out. -/
def Fast.Decode (_r : Fast) (ioe : Bool) (input : List Nat) :
    Except CodecErr Fast :=
  match decUvarint ioe input with
  | Except.ok (count, rest) =>
    match decodeVals ioe count (-1) rest with
    | Except.ok vals => Except.ok (MakeFast vals)
    | Except.error e => Except.error e
  | Except.error e => Except.error e

/-- Standard base64 alphabet, as byte values. -/
def alpha (i : Nat) : Nat :=
  if i < 26 then 65 + i
  else if i < 52 then 71 + i
  else if i < 62 then i - 4
  else if i = 62 then 43
  else 47

/-- Inverse of the standard base64 alphabet. -/
def unalpha (c : Nat) : Option Nat :=
  if 65 ≤ c ∧ c ≤ 90 then some (c - 65)
  else if 97 ≤ c ∧ c ≤ 122 then some (c - 71)
  else if 48 ≤ c ∧ c ≤ 57 then some (c + 4)
  else if c = 43 then some 62
  else if c = 47 then some 63
  else none

/-- Standard base64 encoding of a byte list, with padding. -/
def b64encode : List Nat → List Nat
  | [] => []
  | [a] => [alpha (a / 4), alpha (a % 4 * 16), 61, 61]
  | [a, b] => [alpha (a / 4), alpha (a % 4 * 16 + b / 16), alpha (b % 16 * 4), 61]
  | a :: b :: c :: rest =>
    alpha (a / 4) :: alpha (a % 4 * 16 + b / 16) :: alpha (b % 16 * 4 + c / 64) ::
      alpha (c % 64) :: b64encode rest

/-- Strict base64 decoding of a character list back into bytes. -/
def b64decode : List Nat → Option (List Nat)
  | [] => some []
  | c1 :: c2 :: c3 :: c4 :: rest =>
    match unalpha c1, unalpha c2 with
    | some s1, some s2 =>
      if c3 = 61 then
        if c4 = 61 ∧ rest = [] ∧ s2 % 16 = 0 then some [s1 * 4 + s2 / 16]
        else none
      else
        match unalpha c3 with
        | some s3 =>
          if c4 = 61 then
            if rest = [] ∧ s3 % 4 = 0 then
              some [s1 * 4 + s2 / 16, s2 % 16 * 16 + s3 / 4]
            else none
          else
            match unalpha c4 with
            | some s4 =>
              match b64decode rest with
              | some l =>
                some ((s1 * 4 + s2 / 16) :: (s2 % 16 * 16 + s3 / 4) ::
                  (s3 % 4 * 64 + s4) :: l)
              | none => none
            | none => none
        | none => none
    | _, _ => none
  | _ => none

/-- Modelled from the spec: EncodeBase64 writes the identical byte sequence
that Encode would produce, transformed to base64, and feeds the same raw bytes
into the supplied streaming hash accumulator (modelled as a fold). -/
def Fast.EncodeBase64 {α : Type} (s : Fast) (step : α → Nat → α) (init : α) :
    Except CodecErr (List Nat × α) :=
  match s.Encode with
  | Except.ok bytes => Except.ok (b64encode bytes, bytes.foldl step init)
  | Except.error e => Except.error e

theorem encUvarint_lt (n : Nat) : ∀ b ∈ encUvarint n, b < 256 := by
  induction n using Nat.strong_induction_on with
  | _ n ih =>
    rw [encUvarint]
    by_cases h : n < 128
    · rw [dif_pos h]
      intro b hb
      have := List.mem_singleton.1 hb
      omega
    · rw [dif_neg h]
      intro b hb
      rcases List.mem_cons.1 hb with rfl | hb'
      · omega
      · exact ih (n / 128) (Nat.div_lt_self (by omega) (by norm_num)) b hb'

theorem decUvarint_encUvarint (n : Nat) (tail : List Nat) (ioe : Bool) :
    decUvarint ioe (encUvarint n ++ tail) = Except.ok (n, tail) := by
  induction n using Nat.strong_induction_on with
  | _ n ih =>
    rw [encUvarint]
    by_cases h : n < 128
    · rw [dif_pos h]
      simp only [List.singleton_append, decUvarint]
      rw [if_pos h]
      rfl
    · rw [dif_neg h]
      have hrec := ih (n / 128) (Nat.div_lt_self (by omega) (by norm_num))
      have hrec' : decUvarint ioe ((encUvarint (n / 128)).append tail) =
          Except.ok (n / 128, tail) := hrec
      simp only [List.cons_append, decUvarint, hrec, hrec']
      have harith : n / 128 * 128 + (n % 128 + 128 - 128) = n := by omega
      rw [harith, if_neg (show ¬(n / 128 = 0) by omega),
        if_neg (show ¬(n % 128 + 128 < 128) by omega)]

theorem decUvarint_sound (ioe : Bool) : ∀ (input : List Nat) (n : Nat)
    (rest : List Nat), decUvarint ioe input = Except.ok (n, rest) →
    (∀ b ∈ input, b < 256) → input = encUvarint n ++ rest := by
  intro input
  induction input with
  | nil =>
    intro n rest h _
    simp only [decUvarint] at h
    exact Except.noConfusion h
  | cons b input' ih =>
    intro n rest h hb
    simp only [decUvarint] at h
    by_cases h1 : b < 128
    · rw [if_pos h1] at h
      injection h with h2
      injection h2 with hn hr
      subst hn
      subst hr
      rw [encUvarint, dif_pos h1]
      rfl
    · rw [if_neg h1] at h
      cases hrec : decUvarint ioe input' with
      | error e =>
        rw [hrec] at h
        simp only [] at h
        exact Except.noConfusion h
      | ok p =>
        obtain ⟨m, rest'⟩ := p
        rw [hrec] at h
        simp only [] at h
        by_cases hm : m = 0
        · rw [if_pos hm] at h
          exact Except.noConfusion h
        · rw [if_neg hm] at h
          injection h with h2
          injection h2 with hn hr
          have hb256 : b < 256 := hb b (List.mem_cons_self b input')
          have hinput' : input' = encUvarint m ++ rest' := by
            apply ih m rest' hrec
            intro x hx
            exact hb x (List.mem_cons_of_mem b hx)
          rw [encUvarint, dif_neg (show ¬(n < 128) by omega)]
          have he1 : n % 128 + 128 = b := by omega
          have he2 : n / 128 = m := by omega
          rw [he1, he2, List.cons_append, ← hr, ← hinput']

theorem encodeVals_lt (l : List Int) : ∀ b ∈ encodeVals l, b < 256 := by
  induction l with
  | nil => intro b hb; exact absurd hb (List.not_mem_nil b)
  | cons v rest ih =>
    intro b hb
    simp only [encodeVals] at hb
    rcases List.mem_append.1 hb with h | h
    · exact encUvarint_lt v.toNat b h
    · exact ih b h

theorem decodeVals_encodeVals (ioe : Bool) : ∀ (l : List Int) (prev : Int),
    (∀ v ∈ l, 0 ≤ v) → l.Pairwise (· < ·) → (∀ v ∈ l, prev < v) →
    decodeVals ioe l.length prev (encodeVals l) = Except.ok l := by
  intro l
  induction l with
  | nil =>
    intro prev _ _ _
    rfl
  | cons v rest ih =>
    intro prev hnn hps hprev
    have hv0 : 0 ≤ v := hnn v (List.mem_cons_self v rest)
    have hvcast : ((v.toNat : Nat) : Int) = v := Int.toNat_of_nonneg hv0
    simp only [List.length_cons, encodeVals, decodeVals,
      decUvarint_encUvarint v.toNat (encodeVals rest) ioe]
    rw [if_pos (by rw [hvcast]; exact hprev v (List.mem_cons_self v rest))]
    have hrec : decodeVals ioe rest.length ((v.toNat : Nat) : Int)
        (encodeVals rest) = Except.ok rest := by
      rw [hvcast]
      apply ih v
      · intro w hw; exact hnn w (List.mem_cons_of_mem v hw)
      · exact (List.pairwise_cons.1 hps).2
      · intro w hw; exact (List.pairwise_cons.1 hps).1 w hw
    rw [hrec]
    simp only []
    rw [hvcast]

theorem decodeVals_sound (ioe : Bool) : ∀ (k : Nat) (prev : Int)
    (input : List Nat) (vals : List Int),
    decodeVals ioe k prev input = Except.ok vals →
    (∀ b ∈ input, b < 256) →
    input = encodeVals vals ∧ vals.length = k ∧ (∀ v ∈ vals, prev < v) ∧
      vals.Pairwise (· < ·) ∧ (∀ v ∈ vals, 0 ≤ v ∨ prev < v) := by
  intro k
  induction k with
  | zero =>
    intro prev input vals h _
    simp only [decodeVals] at h
    by_cases he : input.isEmpty
    · rw [if_pos he] at h
      injection h with h2
      subst h2
      rw [List.isEmpty_iff] at he
      subst he
      exact ⟨rfl, rfl, by simp, List.Pairwise.nil, by simp⟩
    · rw [if_neg he] at h
      exact Except.noConfusion h
  | succ k ih =>
    intro prev input vals h hb
    simp only [decodeVals] at h
    cases hu : decUvarint ioe input with
    | error e =>
      rw [hu] at h
      simp only [] at h
      exact Except.noConfusion h
    | ok p =>
      obtain ⟨n, rest⟩ := p
      rw [hu] at h
      simp only [] at h
      by_cases hlt : prev < (n : Int)
      · rw [if_pos hlt] at h
        cases hd : decodeVals ioe k (n : Int) rest with
        | error e =>
          rw [hd] at h
          simp only [] at h
          exact Except.noConfusion h
        | ok vals' =>
          rw [hd] at h
          simp only [] at h
          injection h with h2
          subst h2
          have hinput := decUvarint_sound ioe input n rest hu hb
          have hbrest : ∀ b ∈ rest, b < 256 := by
            intro x hx
            apply hb
            rw [hinput, List.mem_append]
            exact Or.inr hx
          obtain ⟨hr1, hr2, hr3, hr4, _⟩ := ih (n : Int) rest vals' hd hbrest
          refine ⟨?_, ?_, ?_, ?_, ?_⟩
          · rw [hinput, hr1]
            simp only [encodeVals]
            rw [Int.toNat_natCast]
          · simp only [List.length_cons]
            omega
          · intro v hv
            rcases List.mem_cons.1 hv with rfl | hv'
            · exact hlt
            · exact lt_trans hlt (hr3 v hv')
          · rw [List.pairwise_cons]
            exact ⟨hr3, hr4⟩
          · intro v hv
            rcases List.mem_cons.1 hv with rfl | hv'
            · right; exact hlt
            · right; exact lt_trans hlt (hr3 v hv')
      · rw [if_neg hlt] at h
        exact Except.noConfusion h

theorem ordered_MakeFast (l : List Int) (hl : l.Pairwise (· < ·)) :
    (MakeFast l).Ordered = l := by
  apply eq_sorted_of_mem_iff (sorted_Ordered _ (WF_MakeFast l)) hl
  intro v
  rw [mem_Ordered _ _ (WF_MakeFast l), contains_MakeFast]
  simp

theorem MakeFast_Ordered (s : Fast) (hwf : s.WF) : MakeFast s.Ordered = s := by
  apply fast_ext _ _ (WF_MakeFast _) hwf
  intro v
  rw [contains_MakeFast]
  cases hc : s.Contains v with
  | true => exact decide_eq_true ((mem_Ordered s v hwf).2 hc)
  | false =>
    apply decide_eq_false
    intro hm
    rw [(mem_Ordered s v hwf).1 hm] at hc
    exact Bool.noConfusion hc

theorem unalpha_alpha : ∀ i, i < 64 → unalpha (alpha i) = some i := by decide

theorem alpha_ne_61 : ∀ i, i < 64 → alpha i ≠ 61 := by decide

theorem b64_roundtrip_aux : ∀ (N : Nat) (l : List Nat), l.length ≤ N →
    (∀ b ∈ l, b < 256) → b64decode (b64encode l) = some l := by
  intro N
  induction N with
  | zero =>
    intro l hlen _
    cases l with
    | nil => rfl
    | cons x xs => simp at hlen
  | succ N ih =>
    intro l hlen hb
    cases l with
    | nil => rfl
    | cons a l1 =>
      cases l1 with
      | nil =>
        have ha := hb a (List.mem_cons_self a [])
        have h1 := unalpha_alpha (a / 4) (by omega)
        have h2 := unalpha_alpha (a % 4 * 16) (by omega)
        have h3 : a % 4 * 16 % 16 = 0 := by omega
        have h4 : a / 4 * 4 + a % 4 * 16 / 16 = a := by omega
        simp only [b64encode, b64decode, h1, h2]
        simp [h3]
        omega
      | cons b l2 =>
        cases l2 with
        | nil =>
          have ha := hb a (List.mem_cons_self a [b])
          have hbb := hb b (List.mem_cons_of_mem a (List.mem_cons_self b []))
          have h1 := unalpha_alpha (a / 4) (by omega)
          have h2 := unalpha_alpha (a % 4 * 16 + b / 16) (by omega)
          have h3 := unalpha_alpha (b % 16 * 4) (by omega)
          have hne := alpha_ne_61 (b % 16 * 4) (by omega)
          have e1 : a / 4 * 4 + (a % 4 * 16 + b / 16) / 16 = a := by omega
          have e2 : (a % 4 * 16 + b / 16) % 16 * 16 + b % 16 * 4 / 4 = b := by
            omega
          simp only [b64encode, b64decode, h1, h2, h3]
          simp [hne, show b % 16 * 4 % 4 = 0 by omega]
          omega
        | cons c rest =>
          have ha := hb a (List.mem_cons_self a (b :: c :: rest))
          have hbb := hb b (List.mem_cons_of_mem a
            (List.mem_cons_self b (c :: rest)))
          have hc := hb c (List.mem_cons_of_mem a (List.mem_cons_of_mem b
            (List.mem_cons_self c rest)))
          have h1 := unalpha_alpha (a / 4) (by omega)
          have h2 := unalpha_alpha (a % 4 * 16 + b / 16) (by omega)
          have h3 := unalpha_alpha (b % 16 * 4 + c / 64) (by omega)
          have h4 := unalpha_alpha (c % 64) (by omega)
          have hne3 := alpha_ne_61 (b % 16 * 4 + c / 64) (by omega)
          have hne4 := alpha_ne_61 (c % 64) (by omega)
          have hrec : b64decode (b64encode rest) = some rest := by
            apply ih rest (by simp only [List.length_cons] at hlen; omega)
            intro x hx
            exact hb x (List.mem_cons_of_mem a (List.mem_cons_of_mem b
              (List.mem_cons_of_mem c hx)))
          have e1 : a / 4 * 4 + (a % 4 * 16 + b / 16) / 16 = a := by omega
          have e2 : (a % 4 * 16 + b / 16) % 16 * 16 +
              (b % 16 * 4 + c / 64) / 4 = b := by omega
          have e3 : (b % 16 * 4 + c / 64) % 4 * 64 + c % 64 = c := by omega
          simp only [b64encode, b64decode, h1, h2, h3, h4, hrec]
          simp [hne3, hne4]
          omega

theorem b64_roundtrip (l : List Nat) (h : ∀ b ∈ l, b < 256) :
    b64decode (b64encode l) = some l :=
  b64_roundtrip_aux l.length l le_rfl h

theorem Encode_bytes (s : Fast) (bytes : List Nat)
    (h : s.Encode = Except.ok bytes) :
    bytes = encUvarint s.Ordered.length ++ encodeVals s.Ordered := by
  unfold Fast.Encode at h
  by_cases hg : s.Ordered.all (fun v => decide (0 ≤ v))
  · rw [if_pos hg] at h
    injection h with h2
    exact h2.symm
  · rw [if_neg hg] at h
    exact Except.noConfusion h

theorem Encode_bytes_lt (s : Fast) (bytes : List Nat)
    (h : s.Encode = Except.ok bytes) : ∀ b ∈ bytes, b < 256 := by
  rw [Encode_bytes s bytes h]
  intro b hb
  rcases List.mem_append.1 hb with h1 | h1
  · exact encUvarint_lt _ b h1
  · exact encodeVals_lt _ b h1

theorem decide_mem_Ordered (s : Fast) (v : Int) (hwf : s.WF) :
    decide (v ∈ s.Ordered) = s.Contains v := by
  cases hc : s.Contains v with
  | true => exact decide_eq_true ((mem_Ordered s v hwf).2 hc)
  | false =>
    apply decide_eq_false
    intro hm
    rw [(mem_Ordered s v hwf).1 hm] at hc
    exact Bool.noConfusion hc

theorem foldl_snoc (l acc : List Int) :
    l.foldl (fun a v => a ++ [v]) acc = acc ++ l := by
  induction l generalizing acc with
  | nil => simp
  | cons x xs ih =>
    rw [List.foldl_cons, ih]
    simp

/-- C1: String() renders the set as "(" + comma-joined tokens + ")", scanning
members ascending and compressing exactly the maximal non-negative consecutive
runs of length at least 3 into lo-hi tokens; in particular the four literal
fixtures of the specification hold. -/
theorem claim1_string_fixtures :
    (MakeFast []).toText = "()" ∧
    (MakeFast [-5, -3, -2, -1, 0, 1, 2, 3, 4, 5]).toText = "(-5,-3,-2,-1,0-5)" ∧
    (MakeFast [0, 1, 3, 4, 5]).toText = "(0,1,3-5)" ∧
    (MakeFast [-1, 0, 1, 127, 128, 255, 256, 257, 512]).toText =
      "(-1,0,1,127,128,255-257,512)" :=
  ⟨by decide, by decide, by decide, by decide⟩

/-- C2: for every set S whose members are all non-negative and every receiver
in any prior state, Encode(S) succeeds, decoding the produced bytes succeeds,
the result is independent of the receiver's previous contents, and the decoded
set Equals S (in both directions). -/
theorem claim2_encode_decode_roundtrip (S r : Fast) (ioe : Bool) (hwf : S.WF)
    (hnn : ∀ v ∈ S.Ordered, 0 ≤ v) :
    ∃ bytes T, S.Encode = Except.ok bytes ∧
      Fast.Decode r ioe bytes = Except.ok T ∧
      (∀ r', Fast.Decode r' ioe bytes = Fast.Decode r ioe bytes) ∧
      T.Equals S = true ∧ S.Equals T = true := by
  have hguard : S.Ordered.all (fun v => decide (0 ≤ v)) = true :=
    List.all_eq_true.2 (fun v hv => decide_eq_true (hnn v hv))
  refine ⟨encUvarint S.Ordered.length ++ encodeVals S.Ordered, S, ?_, ?_, ?_, ?_, ?_⟩
  · unfold Fast.Encode
    rw [if_pos hguard]
  · unfold Fast.Decode
    rw [decUvarint_encUvarint]
    have hdec : decodeVals ioe S.Ordered.length (-1) (encodeVals S.Ordered) =
        Except.ok S.Ordered :=
      decodeVals_encodeVals ioe S.Ordered (-1) hnn (sorted_Ordered S hwf)
        (fun v hv => by have := hnn v hv; omega)
    show (match decodeVals ioe S.Ordered.length (-1) (encodeVals S.Ordered) with
      | Except.ok vals => Except.ok (MakeFast vals)
      | Except.error e => Except.error e) = Except.ok S
    rw [hdec]
    show Except.ok (MakeFast S.Ordered) = Except.ok S
    rw [MakeFast_Ordered S hwf]
  · intro r'
    rfl
  · exact (Equals_iff_eq S S hwf hwf).2 rfl
  · exact (Equals_iff_eq S S hwf hwf).2 rfl

theorem claim2_witness :
    ∃ bytes T, (MakeFast [0, 5, 200]).Encode = Except.ok bytes ∧
      Fast.Decode (MakeFast [7]) false bytes = Except.ok T ∧
      (∀ r', Fast.Decode r' false bytes =
        Fast.Decode (MakeFast [7]) false bytes) ∧
      T.Equals (MakeFast [0, 5, 200]) = true ∧
      (MakeFast [0, 5, 200]).Equals T = true :=
  claim2_encode_decode_roundtrip (MakeFast [0, 5, 200]) (MakeFast [7]) false
    (WF_MakeFast _) (by decide)

/-- C3: after any sequence of Add/Remove calls from the empty set, Contains(v)
is true iff the last operation mentioning v was an Add; adding a present
member or removing a non-member is a state-preserving no-op; Empty() is true
iff no value is a member. -/
theorem claim3_membership_consistency :
    (∀ (ops : List SetOp) (v : Int),
      (runOps ops).Contains v = lastWasAdd ops v) ∧
    (∀ (s : Fast) (v : Int), s.WF → s.Contains v = true → s.Add v = s) ∧
    (∀ (s : Fast) (v : Int), s.WF → s.Contains v = false → s.Remove v = s) ∧
    (∀ s : Fast, s.WF → (s.Empty = true ↔ ∀ v, s.Contains v = false)) :=
  ⟨contains_runOps,
   fun s v h1 h2 => Add_of_contains s v h1 h2,
   fun s v h1 h2 => Remove_of_not_contains s v h1 h2,
   fun s h => Empty_iff s h⟩

theorem claim3_witness :
    (runOps [SetOp.add 5, SetOp.add (-3), SetOp.remove 5,
      SetOp.add 200]).Contains (-3) =
        lastWasAdd [SetOp.add 5, SetOp.add (-3), SetOp.remove 5,
          SetOp.add 200] (-3) ∧
    (MakeFast [4]).Add 4 = MakeFast [4] ∧
    (MakeFast [4]).Remove 9 = MakeFast [4] ∧
    ((MakeFast []).Empty = true ↔ ∀ v, (MakeFast []).Contains v = false) :=
  ⟨claim3_membership_consistency.1 _ _,
   claim3_membership_consistency.2.1 (MakeFast [4]) 4 (WF_MakeFast _) (by decide),
   claim3_membership_consistency.2.2.1 (MakeFast [4]) 9 (WF_MakeFast _) (by decide),
   claim3_membership_consistency.2.2.2 (MakeFast []) (WF_MakeFast _)⟩

/-- C4: AddRange(from, to) produces exactly the state obtained by Add-ing
every integer of the closed interval in ascending order (the interval list
being exactly from..to), and is a no-op when from > to; membership afterwards
is interval membership or prior membership, for every position of the
interval relative to the dense window. -/
theorem claim4_addRange (s : Fast) (lo hi : Int) (hwf : s.WF) :
    s.AddRange lo hi = (rangeList lo hi).foldl Fast.Add s ∧
    (∀ v, v ∈ rangeList lo hi ↔ lo ≤ v ∧ v ≤ hi) ∧
    (lo > hi → s.AddRange lo hi = s) ∧
    (∀ v, (s.AddRange lo hi).Contains v =
      (decide (lo ≤ v ∧ v ≤ hi) || s.Contains v)) := by
  refine ⟨AddRange_eq_foldl_Add s lo hi hwf, fun v => mem_rangeList lo hi v, ?_,
    fun v => contains_AddRange s lo hi v hwf⟩
  intro hgt
  rw [AddRange_eq_foldl_Add s lo hi hwf]
  have hempty : rangeList lo hi = [] := by
    unfold rangeList
    have h0 : (hi + 1 - lo).toNat = 0 := by omega
    rw [h0]
    rfl
  rw [hempty]
  rfl

theorem claim4_witness :
    (MakeFast [-7, 3]).AddRange (-2) 130 =
      (rangeList (-2) 130).foldl Fast.Add (MakeFast [-7, 3]) :=
  (claim4_addRange (MakeFast [-7, 3]) (-2) 130 (WF_MakeFast _)).1

/-- C5: driving Next from any starting point at or below all members
reproduces Ordered() exactly, and Ordered()/ForEach enumerate exactly the
members in strictly ascending order. -/
theorem claim5_next_ordered_equivalence (s : Fast) (f : Int) (hwf : s.WF)
    (hlow : ∀ v ∈ s.Ordered, f ≤ v) :
    nextIter s f = s.Ordered ∧
    s.Ordered.Pairwise (· < ·) ∧
    (∀ v, v ∈ s.Ordered ↔ s.Contains v = true) ∧
    s.ForEach (fun v l => l ++ [v]) [] = s.Ordered := by
  refine ⟨nextIter_eq_Ordered s f hwf hlow, sorted_Ordered s hwf,
    fun v => mem_Ordered s v hwf, ?_⟩
  unfold Fast.ForEach
  exact foldl_snoc s.Ordered []

theorem claim5_witness :
    nextIter (MakeFast [200, -4, 7]) (-100) = (MakeFast [200, -4, 7]).Ordered :=
  (claim5_next_ordered_equivalence (MakeFast [200, -4, 7]) (-100)
    (WF_MakeFast _) (by decide)).1

/-- C6: for all sets and every integer, union membership is disjunction,
intersection membership is conjunction, difference membership is conjunction
with the negation, regardless of each value's position relative to the dense
window; and each value-returning form is the in-place form applied to a copy
of the receiver. -/
theorem claim6_algebra (a b : Fast) (v : Int) (ha : a.WF) (hb : b.WF) :
    (a.Union b).Contains v = (a.Contains v || b.Contains v) ∧
    (a.Intersection b).Contains v = (a.Contains v && b.Contains v) ∧
    (a.Difference b).Contains v = (a.Contains v && !b.Contains v) ∧
    a.Union b = (a.Copy).UnionWith b ∧
    a.Intersection b = (a.Copy).IntersectionWith b ∧
    a.Difference b = (a.Copy).DifferenceWith b := by
  refine ⟨?_, ?_, ?_, rfl, rfl, rfl⟩
  · show ((a.Copy).UnionWith b).Contains v = _
    unfold Fast.Copy Fast.UnionWith
    rw [contains_foldl_Add, decide_mem_Ordered b v hb]
  · show ((a.Copy).IntersectionWith b).Contains v = _
    unfold Fast.Copy Fast.IntersectionWith
    rw [contains_MakeFast]
    cases hca : a.Contains v with
    | true =>
      cases hcb : b.Contains v with
      | true =>
        apply decide_eq_true
        rw [List.mem_filter]
        exact ⟨(mem_Ordered a v ha).2 hca, hcb⟩
      | false =>
        apply decide_eq_false
        intro hmem
        rw [List.mem_filter, hcb] at hmem
        exact Bool.noConfusion hmem.2
    | false =>
      apply decide_eq_false
      intro hmem
      rw [List.mem_filter] at hmem
      rw [(mem_Ordered a v ha).1 hmem.1] at hca
      exact Bool.noConfusion hca
  · show ((a.Copy).DifferenceWith b).Contains v = _
    unfold Fast.Copy Fast.DifferenceWith
    rw [contains_foldl_Remove _ _ _ ha, decide_mem_Ordered b v hb]

theorem claim6_witness :
    ((MakeFast [-4, 3, 300]).Union (MakeFast [3, 9])).Contains 300 =
      ((MakeFast [-4, 3, 300]).Contains 300 || (MakeFast [3, 9]).Contains 300) :=
  (claim6_algebra (MakeFast [-4, 3, 300]) (MakeFast [3, 9]) 300
    (WF_MakeFast _) (WF_MakeFast _)).1

/-- C7: Copy (and CopyFrom, regardless of the destination's prior contents)
yields a set equal to the original, removing a member from the copy breaks
equality in both directions while re-adding it restores equality in both
directions. -/
theorem claim7_copy_independence (a : Fast) (v : Int) (hwf : a.WF)
    (hv : a.Contains v = true) :
    (a.Copy).Equals a = true ∧ a.Equals (a.Copy) = true ∧
    (∀ bprev : Fast, (bprev.CopyFrom a).Equals a = true) ∧
    ((a.Copy).Remove v).Equals a = false ∧
    a.Equals ((a.Copy).Remove v) = false ∧
    (((a.Copy).Remove v).Add v).Equals a = true ∧
    a.Equals (((a.Copy).Remove v).Add v) = true := by
  have hrefl : a.Equals a = true := (Equals_iff_eq a a hwf hwf).2 rfl
  have hwfr : (a.Remove v).WF := WF_Remove a v hwf
  have hne : a.Remove v ≠ a := by
    intro heq
    have hcv := congrArg (fun s => Fast.Contains s v) heq
    simp only [] at hcv
    rw [contains_Remove a v v hwf, hv] at hcv
    simp at hcv
  have hreadd : (a.Remove v).Add v = a := by
    apply fast_ext _ _ (WF_Add _ v hwfr) hwf
    intro w
    rw [contains_Add, contains_Remove a v w hwf]
    by_cases hw : w = v
    · subst hw
      simp [hv]
    · simp [hw]
  refine ⟨hrefl, hrefl, fun bprev => hrefl, ?_, ?_, ?_, ?_⟩
  · cases he : ((a.Copy).Remove v).Equals a with
    | false => rfl
    | true =>
      exact absurd ((Equals_iff_eq _ a hwfr hwf).1 he) hne
  · cases he : a.Equals ((a.Copy).Remove v) with
    | false => rfl
    | true =>
      have := ((Equals_iff_eq a _ hwf hwfr).1 he).symm
      exact absurd this hne
  · show ((a.Remove v).Add v).Equals a = true
    rw [hreadd]
    exact hrefl
  · show a.Equals ((a.Remove v).Add v) = true
    rw [hreadd]
    exact hrefl

theorem claim7_witness :
    (((MakeFast [2, 130, -6]).Copy).Remove 130).Equals
      (MakeFast [2, 130, -6]) = false :=
  (claim7_copy_independence (MakeFast [2, 130, -6]) 130 (WF_MakeFast _)
    (by decide)).2.2.2.1

/-- C8: EncodeBase64 writes exactly the base64 transform of the bytes Encode
would produce (decoding the base64 output recovers those bytes byte-for-byte)
and feeds the same raw bytes into the supplied streaming hash accumulator. -/
theorem claim8_encodeBase64 {α : Type} (S : Fast) (step : α → Nat → α)
    (init : α) (hwf : S.WF) (hnn : ∀ v ∈ S.Ordered, 0 ≤ v) :
    ∃ bytes, S.Encode = Except.ok bytes ∧
      S.EncodeBase64 step init =
        Except.ok (b64encode bytes, bytes.foldl step init) ∧
      b64decode (b64encode bytes) = some bytes := by
  have hguard : S.Ordered.all (fun v => decide (0 ≤ v)) = true :=
    List.all_eq_true.2 (fun v hv => decide_eq_true (hnn v hv))
  have hok : S.Encode =
      Except.ok (encUvarint S.Ordered.length ++ encodeVals S.Ordered) := by
    unfold Fast.Encode
    rw [if_pos hguard]
  refine ⟨_, hok, ?_, ?_⟩
  · unfold Fast.EncodeBase64
    rw [hok]
  · exact b64_roundtrip _ (Encode_bytes_lt S _ hok)

theorem claim8_witness :
    ∃ bytes, (MakeFast [0, 1, 200]).Encode = Except.ok bytes ∧
      (MakeFast [0, 1, 200]).EncodeBase64 (fun h b => h * 31 + b) 0 =
        Except.ok (b64encode bytes, bytes.foldl (fun h b => h * 31 + b) 0) ∧
      b64decode (b64encode bytes) = some bytes :=
  claim8_encodeBase64 (MakeFast [0, 1, 200]) (fun h b => h * 31 + b) 0
    (WF_MakeFast _) (by decide)

/-- C9: Equals is the conjunction of SubsetOf in both directions and is
symmetric, and SubsetOf holds iff every member of the receiver is a member of
the other set. -/
theorem claim9_equals_subset (a b : Fast) (ha : a.WF) (hb : b.WF) :
    a.Equals b = (a.SubsetOf b && b.SubsetOf a) ∧
    (a.SubsetOf b = true ↔
      ∀ v, a.Contains v = true → b.Contains v = true) ∧
    a.Equals b = b.Equals a := by
  refine ⟨rfl, SubsetOf_iff a b ha, ?_⟩
  unfold Fast.Equals
  exact Bool.and_comm _ _

theorem claim9_witness :
    (MakeFast [1, 200]).Equals (MakeFast [1]) =
      ((MakeFast [1, 200]).SubsetOf (MakeFast [1]) &&
        (MakeFast [1]).SubsetOf (MakeFast [1, 200])) :=
  (claim9_equals_subset (MakeFast [1, 200]) (MakeFast [1])
    (WF_MakeFast _) (WF_MakeFast _)).1

/-- C10: Decode succeeds only on byte streams that are exactly the encoding of
some set (so malformed or truncated input always fails); truncation reports
the unexpected-end-of-input format error while structural invalidity reports
the invalid format error, and an IO error of the underlying reader is
propagated unchanged. -/
theorem claim10_decode_errors :
    (∀ (input : List Nat) (ioe : Bool) (r s : Fast),
      (∀ b ∈ input, b < 256) → Fast.Decode r ioe input = Except.ok s →
      s.Encode = Except.ok input) ∧
    Fast.Decode emptyFast false [] =
      Except.error (CodecErr.format FormatKind.eof) ∧
    Fast.Decode emptyFast true [] = Except.error CodecErr.ioError ∧
    Fast.Decode emptyFast false [1] =
      Except.error (CodecErr.format FormatKind.eof) ∧
    Fast.Decode emptyFast false [2, 5, 3] =
      Except.error (CodecErr.format FormatKind.invalid) ∧
    Fast.Decode emptyFast false [0, 0] =
      Except.error (CodecErr.format FormatKind.invalid) ∧
    Fast.Decode emptyFast false [1, 133, 0] =
      Except.error (CodecErr.format FormatKind.invalid) := by
  refine ⟨?_, rfl, rfl, rfl, rfl, rfl, rfl⟩
  intro input ioe r s hbyte h
  unfold Fast.Decode at h
  cases hu : decUvarint ioe input with
  | error e =>
    rw [hu] at h
    simp only [] at h
    exact Except.noConfusion h
  | ok p =>
    obtain ⟨count, rest⟩ := p
    rw [hu] at h
    simp only [] at h
    cases hd : decodeVals ioe count (-1) rest with
    | error e =>
      rw [hd] at h
      simp only [] at h
      exact Except.noConfusion h
    | ok vals =>
      rw [hd] at h
      simp only [] at h
      injection h with h2
      have hinput := decUvarint_sound ioe input count rest hu hbyte
      have hbrest : ∀ x ∈ rest, x < 256 := by
        intro x hx
        apply hbyte
        rw [hinput, List.mem_append]
        exact Or.inr hx
      obtain ⟨hr1, hr2, hr3, hr4, _⟩ :=
        decodeVals_sound ioe count (-1) rest vals hd hbrest
      have hnn : ∀ v ∈ vals, 0 ≤ v := by
        intro v hv
        have := hr3 v hv
        omega
      have hOrd : (MakeFast vals).Ordered = vals := ordered_MakeFast vals hr4
      subst h2
      unfold Fast.Encode
      rw [if_pos (by
        rw [hOrd]
        exact List.all_eq_true.2 (fun v hv => decide_eq_true (hnn v hv)))]
      rw [hOrd, hr2, ← hr1, ← hinput]

theorem claim10_witness :
    (MakeFast [3, 5]).Encode = Except.ok [2, 3, 5] :=
  claim10_decode_errors.1 [2, 3, 5] false emptyFast (MakeFast [3, 5])
    (by decide) (by rfl)

end Intsets
